import Mathlib

/-!
Verification development for the mlfab monotonic attention operator
(`mlfab/nn/architectures/monotonic_attention.py`).

Tensors with shape `(..., src_len, tgt_len)` are modelled entrywise as
functions `ℕ → ℕ → ℝ` (the leading batch dimensions act pointwise and are
omitted); machine floats are modelled as exact real numbers.  A list-of-rows
wrapper is used where a claim speaks about tensor shapes, and an explicit
store model is used where a claim speaks about in-place mutation.
-/

/-- Sentinel `MIN_LOG_PROB = -1e4` from the source: a finite stand-in for
negative infinity used for unreachable DP cells. -/
noncomputable def MIN_LOG_PROB : ℝ := -10000

/-- Model of `_logaddexp(a, b) = torch.logsumexp(stack(a, b))`, which is
mathematically `log(exp a + exp b)`. -/
noncomputable def logaddexp (a b : ℝ) : ℝ := Real.log (Real.exp a + Real.exp b)

/-- `_pos_log_prob(x) = -log1p(exp(-x))`, the log of `sigmoid(x)`. -/
noncomputable def pos_log_prob (x : ℝ) : ℝ := -Real.log (1 + Real.exp (-x))

/-- `_neg_log_prob(x) = -log1p(exp(x))`, the log of `sigmoid(-x)`. -/
noncomputable def neg_log_prob (x : ℝ) : ℝ := -Real.log (1 + Real.exp x)

/-- `_d_pos_log_prob(x) = 1 / (1 + exp(x))`. -/
noncomputable def d_pos_log_prob (x : ℝ) : ℝ := 1 / (1 + Real.exp x)

/-- `_d_neg_log_prob(x) = -1 / (1 + exp(-x))`. -/
noncomputable def d_neg_log_prob (x : ℝ) : ℝ := -1 / (1 + Real.exp (-x))

/-- An unbatched real matrix, indexed by (source row, target column). -/
abbrev Mtx := ℕ → ℕ → ℝ

/-- `F.pad(logits, (1, 0), value=0.0)`: prepend one zero-valued column. -/
noncomputable def padBy1 (L : Mtx) : Mtx := fun i j => if j = 0 then 0 else L i (j - 1)

/-- The padded phi table filled by `forward_pass_cpu_`:
row 0 is `MIN_LOG_PROB` except `phis[0,1] = 0`, column 0 is `MIN_LOG_PROB`,
and row `i` (for `i ≥ 1`) column `j` (for `j ≥ 1`) is
`logaddexp(phis[i-1,j] + pos_log_prob(padded[i-1,j]),
           phis[i-1,j-1] + neg_log_prob(padded[i-1,j-1]))`,
exactly mirroring the in-place row-by-row fill of the source. -/
noncomputable def phis (L : Mtx) : ℕ → ℕ → ℝ
  | 0, j => if j = 1 then 0 else MIN_LOG_PROB
  | _ + 1, 0 => MIN_LOG_PROB
  | i + 1, j + 1 =>
      logaddexp (phis L i (j + 1) + pos_log_prob (padBy1 L i (j + 1)))
        (phis L i j + neg_log_prob (padBy1 L i j))

/-- The first return value of `forward_pass_cpu_`: the phi table with the
padding column dropped (`phis[..., 1:]`). -/
noncomputable def phi_out (L : Mtx) (i j : ℕ) : ℝ := phis L i (j + 1)

/-- The second return value of `forward_pass_cpu_`:
`phis[..., 1:] + _neg_log_prob(padded_logits[..., 1:])`, and the dropped
padded logits are the original logits. -/
noncomputable def prob_out (L : Mtx) (i j : ℕ) : ℝ := phi_out L i j + neg_log_prob (L i j)

/-- Entry function of a list-of-rows matrix (out-of-range reads default to 0;
claims only ever use in-range entries). -/
def entry (L : List (List ℝ)) : Mtx := fun i j => (L.getD i []).getD j 0

/-- List-level `forward_pass_cpu_(logits)`: returns the pair
`(phis, probs)` as rectangular list tensors with `logits.size(-2)` rows and
`logits.size(-1)` columns, whose entries are given by the table fill above. -/
noncomputable def forward_pass_cpu_ (L : List (List ℝ)) : List (List ℝ) × List (List ℝ) :=
  ((List.range L.length).map fun i =>
      (List.range (L.headD []).length).map fun j => phi_out (entry L) i j,
   (List.range L.length).map fun i =>
      (List.range (L.headD []).length).map fun j => prob_out (entry L) i j)

/-- Branch posterior `a` of `backward_pass_cpu_`:
`exp(phis[i,j] + pos_log_prob(logits[i,j]) - phis[i+1,j])`
(all in dropped, unpadded coordinates, as in the source's backward pass). -/
noncomputable def aPost (L phi : Mtx) (i j : ℕ) : ℝ :=
  Real.exp (phi i j + pos_log_prob (L i j) - phi (i + 1) j)

/-- Branch posterior `b` of `backward_pass_cpu_`:
`exp(phis[i,j] + neg_log_prob(logits[i,j]) - phis[i+1,j+1])`. -/
noncomputable def bPost (L phi : Mtx) (i j : ℕ) : ℝ :=
  Real.exp (phi i j + neg_log_prob (L i j) - phi (i + 1) (j + 1))

/-- Value of the in-place `grad_phis` accumulator of `backward_pass_cpu_`
after the reverse loop has finished, indexed by distance from the last row:
`grad_phis_aux ... k j` is the final value at row `s-1-k`, column `j`.
Row `s-1` keeps its seed (the upstream gradient); each earlier row `i` has
accumulated `c = grad_phis[i+1,:] * a` on all columns and
`d = grad_phis[i+1,1:] * b` on columns `0..t-2`. -/
noncomputable def grad_phis_aux (L phi g : Mtx) (s t : ℕ) : ℕ → ℕ → ℝ
  | 0, j => g (s - 1) j
  | k + 1, j =>
      g (s - 2 - k) j + grad_phis_aux L phi g s t k j * aPost L phi (s - 2 - k) j +
        (if j + 1 < t then grad_phis_aux L phi g s t k (j + 1) * bPost L phi (s - 2 - k) j else 0)

/-- Final `grad_phis` accumulator value at row `i`, column `j`. -/
noncomputable def grad_phis_final (L phi g : Mtx) (s t : ℕ) (i j : ℕ) : ℝ :=
  grad_phis_aux L phi g s t (s - 1 - i) j

/-- Output entry of `backward_pass_cpu_(logits, phis, grad_phis)` for a
`(s, t)`-shaped problem: the last row is initialized to zero, each earlier row
receives the two branch contributions `c * d_pos_log_prob(logits[i,:])` and
(on columns `0..t-2`) `d * d_neg_log_prob(logits[i,:-1])`, and the
precomputed `extra_grad = d_neg_log_prob(logits) * grad_phis_seed` is added
at the very end. -/
noncomputable def backward_pass_cpu_ (L phi g : Mtx) (s t : ℕ) (i j : ℕ) : ℝ :=
  (if i = s - 1 then 0
   else
     grad_phis_final L phi g s t (i + 1) j * aPost L phi i j * d_pos_log_prob (L i j) +
       (if j + 1 < t then
         grad_phis_final L phi g s t (i + 1) (j + 1) * bPost L phi i j * d_neg_log_prob (L i j)
        else 0)) +
    d_neg_log_prob (L i j) * g i j

/-- `phi_to_pos_prob(phi) = 1 / (exp(-phi) + 1)`. -/
noncomputable def phi_to_pos_prob (phi : ℝ) : ℝ := 1 / (Real.exp (-phi) + 1)

/-- `neg_prob_to_phi(prob) = -log(1/prob - 1)`. -/
noncomputable def neg_prob_to_phi (prob : ℝ) : ℝ := -Real.log (1 / prob - 1)

/-- `MonotonicAttention._clamp_attn` with stored `clamp_value`:
hard clamp is `attn.clamp(-clamp_value, clamp_value)` (torch semantics
`min(max(x, lo), hi)`), soft clamp is `attn.tanh() * clamp_value`. -/
noncomputable def clamp_attn (soft_clamp : Bool) (clamp_value : ℝ) (x : ℝ) : ℝ :=
  if soft_clamp then Real.tanh x * clamp_value
  else min (max x (-clamp_value)) clamp_value

/-- Raising behaviour of `MonotonicAttention.__init__` (for the default
`kdim = vdim = None` construction surface): first the three assert statements,
with Python integer `%` semantics — a zero divisor raises `ZeroDivisionError`
before the assert condition can be evaluated, and a false condition raises
`AssertionError` — and then the one raising operation of the remaining
constructor body.  With `kdim = vdim = None` the constructor builds
`in_proj_weight` of shape `(embed_dim + kv_embed_dim * 2, embed_dim)` with
`kv_embed_dim = (num_heads // gqa_factor) * (embed_dim // num_heads)`, and
`_reset_parameters` applies `nn.init.xavier_uniform_` to it, which computes
`2.0 / float(fan_in + fan_out)` with `fan_in = embed_dim` (its second
dimension) and `fan_out = embed_dim + kv_embed_dim * 2` (its first), raising
`ZeroDivisionError` when that sum is zero; every other statement of the body
(`torch.empty` allocations, `nn.Linear`, whose `kaiming_uniform_` no-ops on
zero-element tensors, and the constant bias inits) cannot raise.  Returns
`ok` exactly when construction succeeds. -/
noncomputable def init_checks (embed_dim num_heads gqa_factor : ℕ) (clamp_prob : ℝ) :
    Except String Unit :=
  if num_heads = 0 then .error "ZeroDivisionError"
  else if embed_dim % num_heads ≠ 0 then .error "AssertionError: embed_dim % num_heads"
  else if gqa_factor = 0 then .error "ZeroDivisionError"
  else if num_heads % gqa_factor ≠ 0 then .error "AssertionError: num_heads % gqa_factor"
  else if ¬(clamp_prob > 1 / 2 ∧ clamp_prob < 1) then .error "AssertionError: clamp_prob"
  else if embed_dim + (embed_dim + num_heads / gqa_factor * (embed_dim / num_heads) * 2) = 0
    then .error "ZeroDivisionError"
  else .ok ()

/-- The two implementations `get_monotonic_attention_fn` can return. -/
inductive AttnFn where
  | cpu_fn : AttnFn
  | gpu_fn : AttnFn
deriving DecidableEq

/-- Uncached body of `get_monotonic_attention_fn`.  `supports_triton` lives in
`mlfab.nn.triton`, which is not among the sources; modelled from the spec as
an abstract boolean ("the device requires a feature the runtime lacks"). -/
def get_monotonic_attention_fn_body (supports_triton : Bool) (device_type : String) : AttnFn :=
  if device_type ≠ "cuda" ∨ supports_triton = false then .cpu_fn else .gpu_fn

/-- Association-list lookup used to model the `lru_cache` dictionary. -/
def cache_lookup : List (String × AttnFn) → String → Option AttnFn
  | [], _ => none
  | (k, f) :: rest, d => if k = d then some f else cache_lookup rest d

/-- `functools.lru_cache(maxsize=None)` model of `get_monotonic_attention_fn`:
the device-type string is the sole cache key; on a miss the body is evaluated
and recorded. Returns the new cache and the returned callable. -/
def get_monotonic_attention_fn (supports_triton : Bool) (cache : List (String × AttnFn))
    (device_type : String) : List (String × AttnFn) × AttnFn :=
  match cache_lookup cache device_type with
  | some f => (cache, f)
  | none =>
      ((device_type, get_monotonic_attention_fn_body supports_triton device_type) :: cache,
       get_monotonic_attention_fn_body supports_triton device_type)

/-- Cache state after a sequence of `get_monotonic_attention_fn` calls
(most recent call first). -/
def run_calls (supports_triton : Bool) : List String → List (String × AttnFn)
  | [] => []
  | d :: ds => (get_monotonic_attention_fn supports_triton (run_calls supports_triton ds) d).1

/-- `monotonic_attention_cpu(logits)`: warns exactly when
`tsz_tgt > tsz_src`, then unconditionally applies `MonotonicAttentionCpu`
(whose forward is `forward_pass_cpu_`). Returns the warning flag and
the marginal output. -/
noncomputable def monotonic_attention_cpu (L : Mtx) (src_len tgt_len : ℕ) : Bool × Mtx :=
  (decide (tgt_len > src_len), fun i j => prob_out L i j)

/-! ### Helper lemmas -/

/-- Entry of a `List.range`-built row at an in-range index. -/
theorem getD_map_range {β : Type} (f : ℕ → β) (n i : ℕ) (d : β) (h : i < n) :
    ((List.range n).map f).getD i d = f i := by
  have hlen : i < ((List.range n).map f).length := by simpa using h
  rw [List.getD_eq_getElem _ _ hlen]
  simp

/-- The real hyperbolic tangent is strictly below 1. -/
theorem real_tanh_lt_one (x : ℝ) : Real.tanh x < 1 := by
  rw [Real.tanh_eq_sinh_div_cosh, div_lt_one (Real.cosh_pos x)]
  exact Real.sinh_lt_cosh x

/-- The real hyperbolic tangent is strictly above -1. -/
theorem neg_one_lt_real_tanh (x : ℝ) : -1 < Real.tanh x := by
  have := real_tanh_lt_one (-x)
  rw [Real.tanh_neg] at this
  linarith

/-- For a clamp probability strictly between 1/2 and 1, the derived clamp
value `-log(1/p - 1)` is strictly positive. -/
theorem neg_prob_to_phi_pos {p : ℝ} (hp1 : 1 / 2 < p) (hp2 : p < 1) :
    0 < neg_prob_to_phi p := by
  have hp0 : 0 < p := by linarith
  have h1 : 1 < 1 / p := one_lt_one_div hp0 hp2
  have h2 : 1 / p < 2 := by
    rw [div_lt_iff₀ hp0]; linarith
  have := Real.log_neg (by linarith : (0:ℝ) < 1 / p - 1) (by linarith : 1 / p - 1 < 1)
  rw [neg_prob_to_phi]
  linarith

/-- Every association recorded in the dispatch cache agrees with the uncached
resolution body. -/
theorem run_calls_sound (st : Bool) (seq : List String) (d : String) (f : AttnFn)
    (h : cache_lookup (run_calls st seq) d = some f) :
    f = get_monotonic_attention_fn_body st d := by
  induction seq with
  | nil => simp [run_calls, cache_lookup] at h
  | cons d' ds ih =>
      rw [run_calls, get_monotonic_attention_fn] at h
      cases hl : cache_lookup (run_calls st ds) d' with
      | some f' =>
          rw [hl] at h
          exact ih h
      | none =>
          rw [hl] at h
          rw [cache_lookup] at h
          by_cases hd : d' = d
          · subst hd
            simp at h
            exact h.symm
          · rw [if_neg hd] at h
            exact ih h

/-- Any dispatch call, on any cache state reachable from the empty cache,
returns exactly what the uncached body returns. -/
theorem get_fn_eq_body (st : Bool) (seq : List String) (d : String) :
    (get_monotonic_attention_fn st (run_calls st seq) d).2 =
      get_monotonic_attention_fn_body st d := by
  rw [get_monotonic_attention_fn]
  cases hl : cache_lookup (run_calls st seq) d with
  | some f => simpa using run_calls_sound st seq d f hl
  | none => rfl

/-! ### Claim theorems (easy structural claims) -/

/-- C9: with `src_len = tgt_len = 1` and logit `x`, `forward_pass_cpu_`
returns `prob[0,0] = neg_log_prob x` exactly, and the returned `phi[0,0]`
is exactly 0 (the only monotonic path is an immediate commit). -/
theorem C9_boundary_path (x : ℝ) :
    (forward_pass_cpu_ [[x]]).2 = [[neg_log_prob x]] ∧
      (forward_pass_cpu_ [[x]]).1 = [[(0 : ℝ)]] := by
  constructor <;>
    simp [forward_pass_cpu_, prob_out, phi_out, phis, entry, List.range_succ]

/-- C8: `monotonic_attention_cpu` emits its warning exactly when
`tgt_len > src_len`; in either case the returned result is the output of the
same forward recurrence (`forward_pass_cpu_`'s marginal output). -/
theorem C8_long_target_warning (L : Mtx) (src_len tgt_len : ℕ) :
    ((monotonic_attention_cpu L src_len tgt_len).1 = true ↔ tgt_len > src_len) ∧
      ∀ i j, (monotonic_attention_cpu L src_len tgt_len).2 i j = prob_out L i j := by
  refine ⟨?_, fun i j => rfl⟩
  simp [monotonic_attention_cpu]

/-- C5: with `c = -log(1/clamp_prob - 1)` and `clamp_prob ∈ (0.5, 1)`:
hard clamping maps any input above `c` exactly to `c`, any input below `-c`
exactly to `-c`, and leaves inputs inside `[-c, c]` unchanged; soft clamping
produces `tanh(x) * c`, which lies strictly inside `(-c, c)`. -/
theorem C5_clamp_behaviour (p x : ℝ) (hp1 : 1 / 2 < p) (hp2 : p < 1) :
    (neg_prob_to_phi p < x → clamp_attn false (neg_prob_to_phi p) x = neg_prob_to_phi p) ∧
      (x < -neg_prob_to_phi p → clamp_attn false (neg_prob_to_phi p) x = -neg_prob_to_phi p) ∧
      (-neg_prob_to_phi p ≤ x → x ≤ neg_prob_to_phi p →
        clamp_attn false (neg_prob_to_phi p) x = x) ∧
      (clamp_attn true (neg_prob_to_phi p) x = Real.tanh x * neg_prob_to_phi p ∧
        -neg_prob_to_phi p < clamp_attn true (neg_prob_to_phi p) x ∧
        clamp_attn true (neg_prob_to_phi p) x < neg_prob_to_phi p) := by
  have hc : 0 < neg_prob_to_phi p := neg_prob_to_phi_pos hp1 hp2
  refine ⟨fun hx => ?_, fun hx => ?_, fun hx1 hx2 => ?_, rfl, ?_, ?_⟩
  · rw [clamp_attn]
    simp only [Bool.false_eq_true, if_false]
    have : neg_prob_to_phi p ≤ max x (-neg_prob_to_phi p) := le_max_of_le_left hx.le
    exact min_eq_right this
  · rw [clamp_attn]
    simp only [Bool.false_eq_true, if_false]
    have h1 : max x (-neg_prob_to_phi p) = -neg_prob_to_phi p := max_eq_right hx.le
    rw [h1]
    exact min_eq_left (by linarith)
  · rw [clamp_attn]
    simp only [Bool.false_eq_true, if_false]
    rw [max_eq_left hx1]
    exact min_eq_left hx2
  · rw [clamp_attn]
    simp only [if_true]
    have := neg_one_lt_real_tanh x
    nlinarith
  · rw [clamp_attn]
    simp only [if_true]
    have := real_tanh_lt_one x
    nlinarith

/-- C5 witness at `clamp_prob = 3/4`, `x = 7`. -/
theorem C5_clamp_behaviour_witness :
    (1 : ℝ) / 2 < 3 / 4 ∧ (3 : ℝ) / 4 < 1 ∧
      ((neg_prob_to_phi (3 / 4) < 7 →
          clamp_attn false (neg_prob_to_phi (3 / 4)) 7 = neg_prob_to_phi (3 / 4)) ∧
        ((7 : ℝ) < -neg_prob_to_phi (3 / 4) →
          clamp_attn false (neg_prob_to_phi (3 / 4)) 7 = -neg_prob_to_phi (3 / 4)) ∧
        (-neg_prob_to_phi (3 / 4) ≤ 7 → (7 : ℝ) ≤ neg_prob_to_phi (3 / 4) →
          clamp_attn false (neg_prob_to_phi (3 / 4)) 7 = 7) ∧
        (clamp_attn true (neg_prob_to_phi (3 / 4)) 7 = Real.tanh 7 * neg_prob_to_phi (3 / 4) ∧
          -neg_prob_to_phi (3 / 4) < clamp_attn true (neg_prob_to_phi (3 / 4)) 7 ∧
          clamp_attn true (neg_prob_to_phi (3 / 4)) 7 < neg_prob_to_phi (3 / 4))) :=
  ⟨by norm_num, by norm_num, C5_clamp_behaviour (3 / 4) 7 (by norm_num) (by norm_num)⟩

/-- C7: the dispatcher returns the CPU implementation for every device type
other than "cuda", and for "cuda" when the Triton backend is unsupported; and
because the memoization key is exactly the device-type string, any two calls
with equal device type (on any cache states reachable from the empty cache)
return the identical callable. -/
theorem C7_device_dispatch (st : Bool) (d e : String) (seq seq1 seq2 : List String)
    (he : e ≠ "cuda" ∨ st = false) :
    (get_monotonic_attention_fn st (run_calls st seq) e).2 = .cpu_fn ∧
      (get_monotonic_attention_fn st (run_calls st seq1) d).2 =
        (get_monotonic_attention_fn st (run_calls st seq2) d).2 := by
  constructor
  · rw [get_fn_eq_body, get_monotonic_attention_fn_body, if_pos he]
  · rw [get_fn_eq_body, get_fn_eq_body]

/-- C7 witness: Triton unsupported, fallback for "cuda" itself, and two calls
with device type "cpu" on different cache histories. -/
theorem C7_device_dispatch_witness :
    (("cuda" : String) ≠ "cuda" ∨ false = false) ∧
      ((get_monotonic_attention_fn false (run_calls false ["cpu"]) "cuda").2 = .cpu_fn ∧
        (get_monotonic_attention_fn false (run_calls false []) "cpu").2 =
          (get_monotonic_attention_fn false (run_calls false ["cuda", "cpu"]) "cpu").2) :=
  ⟨Or.inr rfl, C7_device_dispatch false "cpu" "cuda" ["cpu"] [] ["cuda", "cpu"] (Or.inr rfl)⟩

/-- C6 counterexample: at `embed_dim = 0`, `num_heads = 0`, `gqa_factor = 1`,
`clamp_prob = 3/4`, all three conditions named by the claim hold
(`num_heads ∣ embed_dim`, `gqa_factor ∣ num_heads`, `clamp_prob ∈ (0.5, 1)`),
yet construction rejects: Python evaluates `embed_dim % num_heads` with a zero
divisor and raises `ZeroDivisionError`. -/
theorem C6_counterexample :
    ((0 : ℕ) ∣ 0) ∧ ((1 : ℕ) ∣ 0) ∧ ((1 : ℝ) / 2 < 3 / 4 ∧ (3 : ℝ) / 4 < 1) ∧
      init_checks 0 0 1 (3 / 4) = .error "ZeroDivisionError" := by
  refine ⟨⟨0, rfl⟩, ⟨0, rfl⟩, by norm_num, ?_⟩
  simp [init_checks]

/-- C6 (amended): construction succeeds iff `num_heads` and `gqa_factor` are
nonzero (a zero divisor raises `ZeroDivisionError` before the divisibility
assert can be evaluated), `embed_dim` is divisible by `num_heads`,
`num_heads` is divisible by `gqa_factor`, `clamp_prob` is strictly between
0.5 and 1, and `embed_dim` is nonzero (otherwise `nn.init.xavier_uniform_`
in `_reset_parameters` divides by `fan_in + fan_out = 0` and raises
`ZeroDivisionError`); nothing is silently coerced. -/
theorem C6_init_validation (embed_dim num_heads gqa_factor : ℕ) (clamp_prob : ℝ) :
    init_checks embed_dim num_heads gqa_factor clamp_prob = .ok () ↔
      num_heads ≠ 0 ∧ embed_dim % num_heads = 0 ∧ gqa_factor ≠ 0 ∧
        num_heads % gqa_factor = 0 ∧ (1 / 2 < clamp_prob ∧ clamp_prob < 1) ∧
        embed_dim ≠ 0 := by
  have hfan : embed_dim + (embed_dim + num_heads / gqa_factor * (embed_dim / num_heads) * 2) = 0
      ↔ embed_dim = 0 := by
    constructor
    · intro h
      exact Nat.eq_zero_of_add_eq_zero_right h
    · intro h
      subst h
      simp
  rw [init_checks]
  split_ifs with h1 h2 h3 h4 h5 h6 <;> simp_all

/-- C4: structure of `backward_pass_cpu_`: the `grad_phis` accumulator at the
last source row keeps its upstream seed; the last row's output gradient is
exactly the direct commit term `d_neg_log_prob(L) * grad_prob`; and for every
row `i < src_len - 1` (the reverse loop `i = src_len-2 .. 0`) the accumulator
and the output gradient satisfy the adjoint recurrence driven by row `i+1`. -/
theorem C4_backward_structure (L phi g : Mtx) (s t : ℕ) (hs : 1 ≤ s) :
    (∀ j, backward_pass_cpu_ L phi g s t (s - 1) j =
        d_neg_log_prob (L (s - 1) j) * g (s - 1) j) ∧
      (∀ j, grad_phis_final L phi g s t (s - 1) j = g (s - 1) j) ∧
      (∀ i j, i < s - 1 →
        grad_phis_final L phi g s t i j =
          g i j + grad_phis_final L phi g s t (i + 1) j * aPost L phi i j +
            (if j + 1 < t then
              grad_phis_final L phi g s t (i + 1) (j + 1) * bPost L phi i j
             else 0)) ∧
      (∀ i j, i < s - 1 →
        backward_pass_cpu_ L phi g s t i j =
          grad_phis_final L phi g s t (i + 1) j * aPost L phi i j * d_pos_log_prob (L i j) +
            (if j + 1 < t then
              grad_phis_final L phi g s t (i + 1) (j + 1) * bPost L phi i j *
                d_neg_log_prob (L i j)
             else 0) +
            d_neg_log_prob (L i j) * g i j) := by
  refine ⟨fun j => ?_, fun j => ?_, fun i j hi => ?_, fun i j hi => ?_⟩
  · rw [backward_pass_cpu_, if_pos rfl, zero_add]
  · rw [grad_phis_final, Nat.sub_self, grad_phis_aux]
  · have h1 : s - 1 - i = (s - 2 - i) + 1 := by omega
    have h2 : s - 2 - (s - 2 - i) = i := by omega
    have h3 : s - 1 - (i + 1) = s - 2 - i := by omega
    rw [grad_phis_final, h1, grad_phis_aux, h2, grad_phis_final, grad_phis_final, h3]
  · rw [backward_pass_cpu_, if_neg (by omega), add_assoc]

/-- C4 witness at `s = 2`, `t = 1`, all-zero tensors. -/
theorem C4_backward_structure_witness :
    (1 : ℕ) ≤ 2 ∧
      ((∀ j, backward_pass_cpu_ (fun _ _ => (0 : ℝ)) (fun _ _ => 0) (fun _ _ => 0) 2 1 (2 - 1) j =
          d_neg_log_prob 0 * 0) ∧
        (∀ j, grad_phis_final (fun _ _ => (0 : ℝ)) (fun _ _ => 0) (fun _ _ => 0) 2 1 (2 - 1) j =
          0) ∧
        (∀ i j, i < 2 - 1 →
          grad_phis_final (fun _ _ => (0 : ℝ)) (fun _ _ => 0) (fun _ _ => 0) 2 1 i j =
            0 + grad_phis_final (fun _ _ => (0 : ℝ)) (fun _ _ => 0) (fun _ _ => 0) 2 1 (i + 1) j *
                aPost (fun _ _ => (0 : ℝ)) (fun _ _ => 0) i j +
              (if j + 1 < 1 then
                grad_phis_final (fun _ _ => (0 : ℝ)) (fun _ _ => 0) (fun _ _ => 0) 2 1 (i + 1)
                    (j + 1) * bPost (fun _ _ => (0 : ℝ)) (fun _ _ => 0) i j
               else 0)) ∧
        (∀ i j, i < 2 - 1 →
          backward_pass_cpu_ (fun _ _ => (0 : ℝ)) (fun _ _ => 0) (fun _ _ => 0) 2 1 i j =
            grad_phis_final (fun _ _ => (0 : ℝ)) (fun _ _ => 0) (fun _ _ => 0) 2 1 (i + 1) j *
                aPost (fun _ _ => (0 : ℝ)) (fun _ _ => 0) i j * d_pos_log_prob 0 +
              (if j + 1 < 1 then
                grad_phis_final (fun _ _ => (0 : ℝ)) (fun _ _ => 0) (fun _ _ => 0) 2 1 (i + 1)
                    (j + 1) * bPost (fun _ _ => (0 : ℝ)) (fun _ _ => 0) i j * d_neg_log_prob 0
               else 0) +
              d_neg_log_prob 0 * 0)) :=
  ⟨by norm_num, C4_backward_structure (fun _ _ => 0) (fun _ _ => 0) (fun _ _ => 0) 2 1
    (by norm_num)⟩

/-- C1: on a rectangular logits tensor with at least one source row,
`forward_pass_cpu_` returns `(phi, prob)` of the same shape as the input;
the padded phi table has `phis[0,1] = 0` and `MIN_LOG_PROB` everywhere else
in row 0 and in column 0; rows `i = 1 .. src_len-1` satisfy the log-add-exp
recurrence for every padded target column `j = 1 .. tgt_len`; the returned
phi drops the padding column; and `prob[i,j] = phi[i,j] +
neg_log_prob(L[i,j])` for every cell. -/
theorem C1_forward_characterization (L : List (List ℝ)) (hs : 1 ≤ L.length)
    (hrect : ∀ r ∈ L, r.length = (L.headD []).length) :
    ((forward_pass_cpu_ L).1.length = L.length ∧
      (forward_pass_cpu_ L).2.length = L.length ∧
      (∀ r ∈ (forward_pass_cpu_ L).1, r.length = (L.headD []).length) ∧
      (∀ r ∈ (forward_pass_cpu_ L).2, r.length = (L.headD []).length)) ∧
      (phis (entry L) 0 1 = 0 ∧
        (∀ j, j ≠ 1 → phis (entry L) 0 j = MIN_LOG_PROB) ∧
        ∀ i, 1 ≤ i → phis (entry L) i 0 = MIN_LOG_PROB) ∧
      (∀ i j, 1 ≤ i → i ≤ L.length - 1 → 1 ≤ j → j ≤ (L.headD []).length →
        phis (entry L) i j =
          logaddexp (phis (entry L) (i - 1) j + pos_log_prob (padBy1 (entry L) (i - 1) j))
            (phis (entry L) (i - 1) (j - 1) +
              neg_log_prob (padBy1 (entry L) (i - 1) (j - 1)))) ∧
      (∀ i j, i < L.length → j < (L.headD []).length →
        entry (forward_pass_cpu_ L).1 i j = phis (entry L) i (j + 1) ∧
        entry (forward_pass_cpu_ L).2 i j =
          phis (entry L) i (j + 1) + neg_log_prob (entry L i j)) := by
  refine ⟨⟨?_, ?_, ?_, ?_⟩, ⟨?_, fun j hj => ?_, fun i hi => ?_⟩, fun i j hi1 hi2 hj1 hj2 => ?_,
    fun i j hi hj => ⟨?_, ?_⟩⟩
  · simp [forward_pass_cpu_]
  · simp [forward_pass_cpu_]
  · intro r hr
    simp only [forward_pass_cpu_, List.mem_map] at hr
    obtain ⟨i, _, rfl⟩ := hr
    simp
  · intro r hr
    simp only [forward_pass_cpu_, List.mem_map] at hr
    obtain ⟨i, _, rfl⟩ := hr
    simp
  · simp [phis]
  · simp [phis, hj]
  · match i, hi with
    | i + 1, _ => rw [phis]
  · match i, j, hi1, hj1 with
    | i + 1, j + 1, _, _ =>
        simp only [Nat.add_sub_cancel]
        rw [phis]
  · rw [entry]
    simp only [forward_pass_cpu_]
    rw [getD_map_range _ _ _ _ hi, getD_map_range _ _ _ _ hj, phi_out]
  · rw [entry]
    simp only [forward_pass_cpu_]
    rw [getD_map_range _ _ _ _ hi, getD_map_range _ _ _ _ hj, prob_out, phi_out]

/-- C1 witness at the 1×1 tensor `[[0]]`. -/
theorem C1_forward_characterization_witness :
    1 ≤ [[(0 : ℝ)]].length ∧ (∀ r ∈ [[(0 : ℝ)]], r.length = ([[(0 : ℝ)]].headD []).length) ∧
      (((forward_pass_cpu_ [[(0 : ℝ)]]).1.length = [[(0 : ℝ)]].length ∧
        (forward_pass_cpu_ [[(0 : ℝ)]]).2.length = [[(0 : ℝ)]].length ∧
        (∀ r ∈ (forward_pass_cpu_ [[(0 : ℝ)]]).1,
          r.length = ([[(0 : ℝ)]].headD []).length) ∧
        (∀ r ∈ (forward_pass_cpu_ [[(0 : ℝ)]]).2,
          r.length = ([[(0 : ℝ)]].headD []).length)) ∧
        (phis (entry [[(0 : ℝ)]]) 0 1 = 0 ∧
          (∀ j, j ≠ 1 → phis (entry [[(0 : ℝ)]]) 0 j = MIN_LOG_PROB) ∧
          ∀ i, 1 ≤ i → phis (entry [[(0 : ℝ)]]) i 0 = MIN_LOG_PROB) ∧
        (∀ i j, 1 ≤ i → i ≤ [[(0 : ℝ)]].length - 1 → 1 ≤ j →
          j ≤ ([[(0 : ℝ)]].headD []).length →
          phis (entry [[(0 : ℝ)]]) i j =
            logaddexp
              (phis (entry [[(0 : ℝ)]]) (i - 1) j +
                pos_log_prob (padBy1 (entry [[(0 : ℝ)]]) (i - 1) j))
              (phis (entry [[(0 : ℝ)]]) (i - 1) (j - 1) +
                neg_log_prob (padBy1 (entry [[(0 : ℝ)]]) (i - 1) (j - 1)))) ∧
        (∀ i j, i < [[(0 : ℝ)]].length → j < ([[(0 : ℝ)]].headD []).length →
          entry (forward_pass_cpu_ [[(0 : ℝ)]]).1 i j = phis (entry [[(0 : ℝ)]]) i (j + 1) ∧
          entry (forward_pass_cpu_ [[(0 : ℝ)]]).2 i j =
            phis (entry [[(0 : ℝ)]]) i (j + 1) + neg_log_prob (entry [[(0 : ℝ)]] i j))) :=
  ⟨by norm_num, by simp, C1_forward_characterization [[(0 : ℝ)]] (by norm_num) (by simp)⟩

/-! ### Store model for in-place effects (claim C10) -/

/-- A heap of tensor objects: tensor ids map to matrix values; `next` is the
next fresh id. -/
structure Store where
  mem : ℕ → Mtx
  next : ℕ

/-- Allocate a fresh tensor holding `v`; returns the new store and its id. -/
noncomputable def Store.alloc (σ : Store) (v : Mtx) : Store × ℕ :=
  (⟨fun r => if r = σ.next then v else σ.mem r, σ.next + 1⟩, σ.next)

/-- Overwrite the tensor at id `a` with `v` (an in-place tensor update). -/
noncomputable def Store.write (σ : Store) (a : ℕ) (v : Mtx) : Store :=
  ⟨fun r => if r = a then v else σ.mem r, σ.next⟩


/-- Reading the store after an allocation, below the allocated id. -/
theorem Store.mem_alloc_of_lt (σ : Store) (v : Mtx) (r : ℕ) (h : r < σ.next) :
    ((σ.alloc v).1).mem r = σ.mem r := if_neg (by omega)

/-- Reading the store after a write to a different id. -/
theorem Store.mem_write_ne (σ : Store) (a : ℕ) (v : Mtx) (r : ℕ) (h : r ≠ a) :
    (σ.write a v).mem r = σ.mem r := if_neg h

/-- Allocation advances `next` by one. -/
theorem Store.next_alloc (σ : Store) (v : Mtx) : ((σ.alloc v).1).next = σ.next + 1 := rfl

/-- A write keeps `next`. -/
theorem Store.next_write (σ : Store) (a : ℕ) (v : Mtx) : (σ.write a v).next = σ.next := rfl

/-- One iteration of the forward row loop
(`phis[..., i, 1:] = _logaddexp(...)`): an in-place write into the phi
tensor, reading the previous row of the phi tensor and of the padded logits
tensor from the store. -/
noncomputable def forward_loop_step (pid phid : ℕ) (τ : Store) (i : ℕ) : Store :=
  τ.write phid (fun r j =>
    if r = i ∧ 1 ≤ j then
      logaddexp (τ.mem phid (i - 1) j + pos_log_prob (τ.mem pid (i - 1) j))
        (τ.mem phid (i - 1) (j - 1) + neg_log_prob (τ.mem pid (i - 1) (j - 1)))
    else τ.mem phid r j)

/-- `forward_pass_cpu_` as a store program, mirroring the source statement by
statement: `F.pad` allocates a fresh padded tensor (rebinding the local name),
`torch.empty_like` allocates the phi table, the three boundary assignments and
the row loop `for i in range(1, t_i)` write in place into the phi table only,
and the slice-drop `phis[..., 1:]` and the sum `phis + _neg_log_prob(...)`
produce the two results.  Returns the store, the phi id and the prob id. -/
noncomputable def forward_pass_cpu_S (σ : Store) (lid : ℕ) (s : ℕ) : Store × ℕ × ℕ :=
  let pid := σ.next
  let σ1 := (σ.alloc (fun i j => if j = 0 then 0 else σ.mem lid i (j - 1))).1
  let phid := σ1.next
  let σ2 := (σ1.alloc (fun _ _ => 0)).1
  let σ3 := σ2.write phid (fun i j => if j = 0 then MIN_LOG_PROB else σ2.mem phid i j)
  let σ4 := σ3.write phid (fun i j => if i = 0 then MIN_LOG_PROB else σ3.mem phid i j)
  let σ5 := σ4.write phid (fun i j => if i = 0 ∧ j = 1 then 0 else σ4.mem phid i j)
  let σ6 := (List.range' 1 (s - 1)).foldl (forward_loop_step pid phid) σ5
  let did := σ6.next
  let σ7 := (σ6.alloc (fun i j => σ6.mem phid i (j + 1))).1
  let probid := σ7.next
  let σ8 := (σ7.alloc (fun i j => σ7.mem did i j + neg_log_prob (σ7.mem pid i (j + 1)))).1
  (σ8, did, probid)

/-- One iteration of the backward reverse loop: writes `grad_logits[i, :]`,
then `grad_logits[i, :-1] += ...`, then `grad_phis[i, :] += c`, then
`grad_phis[i, :-1] += d`, all in place. -/
noncomputable def backward_loop_step (lid phid gpid glid : ℕ) (t : ℕ) (τ : Store) (i : ℕ) :
    Store :=
  let τ1 := τ.write glid (fun r j =>
    if r = i then
      τ.mem gpid (i + 1) j *
          Real.exp (τ.mem phid i j + pos_log_prob (τ.mem lid i j) - τ.mem phid (i + 1) j) *
        d_pos_log_prob (τ.mem lid i j)
    else τ.mem glid r j)
  let τ2 := τ1.write glid (fun r j =>
    if r = i ∧ j + 1 < t then
      τ1.mem glid r j +
        τ1.mem gpid (i + 1) (j + 1) *
            Real.exp (τ1.mem phid i j + neg_log_prob (τ1.mem lid i j) -
              τ1.mem phid (i + 1) (j + 1)) *
          d_neg_log_prob (τ1.mem lid i j)
    else τ1.mem glid r j)
  let τ3 := τ2.write gpid (fun r j =>
    if r = i then
      τ2.mem gpid r j +
        τ2.mem gpid (i + 1) j *
          Real.exp (τ2.mem phid i j + pos_log_prob (τ2.mem lid i j) - τ2.mem phid (i + 1) j)
    else τ2.mem gpid r j)
  τ3.write gpid (fun r j =>
    if r = i ∧ j + 1 < t then
      τ3.mem gpid r j +
        τ3.mem gpid (i + 1) (j + 1) *
          Real.exp (τ3.mem phid i j + neg_log_prob (τ3.mem lid i j) -
            τ3.mem phid (i + 1) (j + 1))
    else τ3.mem gpid r j)

/-- `backward_pass_cpu_` as a store program: allocates `grad_logits`
(`empty_like`), zeroes its last row, allocates `extra_grad`, runs the reverse
loop `i = t_i-2 .. 0` writing only into `grad_logits` and the passed-in
`grad_phis` tensor, and finally allocates the returned
`grad_logits + extra_grad`. -/
noncomputable def backward_pass_cpu_S (σ : Store) (lid phid gpid : ℕ) (s t : ℕ) :
    Store × ℕ :=
  let glid := σ.next
  let σ1 := (σ.alloc (fun _ _ => 0)).1
  let σ2 := σ1.write glid (fun i j => if i = s - 1 then 0 else σ1.mem glid i j)
  let eid := σ2.next
  let σ3 := (σ2.alloc (fun i j => d_neg_log_prob (σ2.mem lid i j) * σ2.mem gpid i j)).1
  let σ4 := ((List.range (s - 1)).reverse).foldl (backward_loop_step lid phid gpid glid t) σ3
  let outid := σ4.next
  let σ5 := (σ4.alloc (fun i j => σ4.mem glid i j + σ4.mem eid i j)).1
  (σ5, outid)

/-- `MonotonicAttentionCpu.backward` as a store program: it clones the
upstream gradient (`grad_phis.clone()`) and hands the clone — never the
caller's tensor — to `backward_pass_cpu_`. -/
noncomputable def MonotonicAttentionCpu_backward_S (σ : Store) (lid phid gid : ℕ)
    (s t : ℕ) : Store × ℕ :=
  backward_pass_cpu_S (σ.alloc (σ.mem gid)).1 lid phid σ.next s t

/-- Reading below an id untouched by a fold whose every step preserves it. -/
theorem foldl_mem_frame {α : Type} (step : Store → α → Store) (l : List α) (σ : Store)
    (r : ℕ) (h : ∀ τ x, (step τ x).mem r = τ.mem r) :
    (l.foldl step σ).mem r = σ.mem r := by
  induction l generalizing σ with
  | nil => rfl
  | cons x xs ih => rw [List.foldl_cons, ih, h]

/-- A fold whose every step keeps `next` fixed keeps the store's `next`. -/
theorem foldl_next_frame {α : Type} (step : Store → α → Store) (l : List α) (σ : Store)
    (h : ∀ τ x, (step τ x).next = τ.next) :
    (l.foldl step σ).next = σ.next := by
  induction l generalizing σ with
  | nil => rfl
  | cons x xs ih => rw [List.foldl_cons, ih, h]

/-- The forward row loop keeps `next`. -/
theorem forward_loop_next (pid phid : ℕ) (l : List ℕ) (σ : Store) :
    (l.foldl (forward_loop_step pid phid) σ).next = σ.next :=
  foldl_next_frame _ _ _ fun _ _ => rfl

/-- The forward row loop writes only into the phi tensor. -/
theorem forward_loop_mem (pid phid : ℕ) (l : List ℕ) (σ : Store) (r : ℕ) (h : r ≠ phid) :
    (l.foldl (forward_loop_step pid phid) σ).mem r = σ.mem r :=
  foldl_mem_frame _ _ _ r fun τ x => Store.mem_write_ne τ phid _ r h

/-- The backward reverse loop keeps `next`. -/
theorem backward_loop_next (lid phid gpid glid t : ℕ) (l : List ℕ) (σ : Store) :
    (l.foldl (backward_loop_step lid phid gpid glid t) σ).next = σ.next :=
  foldl_next_frame _ _ _ fun _ _ => rfl

/-- The backward reverse loop writes only into `grad_logits` and `grad_phis`. -/
theorem backward_loop_mem (lid phid gpid glid t : ℕ) (l : List ℕ) (σ : Store) (r : ℕ)
    (h1 : r ≠ glid) (h2 : r ≠ gpid) :
    (l.foldl (backward_loop_step lid phid gpid glid t) σ).mem r = σ.mem r := by
  refine foldl_mem_frame _ _ _ r fun τ x => ?_
  rw [backward_loop_step]
  rw [Store.mem_write_ne _ _ _ r h2, Store.mem_write_ne _ _ _ r h2,
    Store.mem_write_ne _ _ _ r h1, Store.mem_write_ne _ _ _ r h1]

/-- The forward store program never writes to any pre-existing tensor id. -/
theorem forward_S_frame (σ : Store) (lid s : ℕ) (r : ℕ) (hr : r < σ.next) :
    (forward_pass_cpu_S σ lid s).1.mem r = σ.mem r := by
  simp only [forward_pass_cpu_S, Store.next_alloc, Store.next_write, forward_loop_next]
  rw [Store.mem_alloc_of_lt, Store.mem_alloc_of_lt, forward_loop_mem, Store.mem_write_ne,
    Store.mem_write_ne, Store.mem_write_ne, Store.mem_alloc_of_lt, Store.mem_alloc_of_lt] <;>
    (try simp only [Store.next_alloc, Store.next_write, forward_loop_next]) <;> omega

/-- The backward store program writes only into freshly allocated tensors and
into the `grad_phis` tensor it is handed. -/
theorem backward_S_frame (σ : Store) (lid phid gpid s t : ℕ) (r : ℕ) (hr : r < σ.next)
    (hrg : r ≠ gpid) :
    (backward_pass_cpu_S σ lid phid gpid s t).1.mem r = σ.mem r := by
  simp only [backward_pass_cpu_S, Store.next_alloc, Store.next_write, backward_loop_next]
  rw [Store.mem_alloc_of_lt, backward_loop_mem, Store.mem_alloc_of_lt, Store.mem_write_ne,
    Store.mem_alloc_of_lt] <;>
    (try simp only [Store.next_alloc, Store.next_write, backward_loop_next]) <;> omega

/-- C10: neither pass mutates its caller-visible inputs.  The forward store
program leaves the logits tensor it receives unchanged, and the backward
entry point (`MonotonicAttentionCpu.backward`, which clones the upstream
gradient before handing the clone to `backward_pass_cpu_`) leaves the saved
logits, the saved phi table and the caller's upstream gradient unchanged. -/
theorem C10_no_input_mutation (σ : Store) (lid phid gid : ℕ) (s t : ℕ)
    (hl : lid < σ.next) (hp : phid < σ.next) (hg : gid < σ.next) :
    (forward_pass_cpu_S σ lid s).1.mem lid = σ.mem lid ∧
      (MonotonicAttentionCpu_backward_S σ lid phid gid s t).1.mem lid = σ.mem lid ∧
      (MonotonicAttentionCpu_backward_S σ lid phid gid s t).1.mem phid = σ.mem phid ∧
      (MonotonicAttentionCpu_backward_S σ lid phid gid s t).1.mem gid = σ.mem gid := by
  have key : ∀ r, r < σ.next →
      (MonotonicAttentionCpu_backward_S σ lid phid gid s t).1.mem r = σ.mem r := by
    intro r hr
    rw [MonotonicAttentionCpu_backward_S]
    rw [backward_S_frame _ _ _ _ _ _ r (by rw [Store.next_alloc]; omega) (by omega)]
    exact Store.mem_alloc_of_lt σ _ r hr
  exact ⟨forward_S_frame σ lid s lid hl, key lid hl, key phid hp, key gid hg⟩

/-- C10 witness: a store with three distinct live tensors, `s = 2`, `t = 1`. -/
theorem C10_no_input_mutation_witness :
    (0 : ℕ) < 3 ∧ (1 : ℕ) < 3 ∧ (2 : ℕ) < 3 ∧
      ((forward_pass_cpu_S ⟨fun _ _ _ => 0, 3⟩ 0 2).1.mem 0 = Store.mem ⟨fun _ _ _ => 0, 3⟩ 0 ∧
        (MonotonicAttentionCpu_backward_S ⟨fun _ _ _ => 0, 3⟩ 0 1 2 2 1).1.mem 0 =
          Store.mem ⟨fun _ _ _ => 0, 3⟩ 0 ∧
        (MonotonicAttentionCpu_backward_S ⟨fun _ _ _ => 0, 3⟩ 0 1 2 2 1).1.mem 1 =
          Store.mem ⟨fun _ _ _ => 0, 3⟩ 1 ∧
        (MonotonicAttentionCpu_backward_S ⟨fun _ _ _ => 0, 3⟩ 0 1 2 2 1).1.mem 2 =
          Store.mem ⟨fun _ _ _ => 0, 3⟩ 2) :=
  ⟨by norm_num, by norm_num, by norm_num,
    C10_no_input_mutation ⟨fun _ _ _ => 0, 3⟩ 0 1 2 2 1 (by norm_num) (by norm_num)
      (by norm_num)⟩

/-! ### Probability-mass analysis (claim C3) -/

/-- Exponentiating `logaddexp` recovers the sum of exponentials. -/
theorem exp_logaddexp (a b : ℝ) : Real.exp (logaddexp a b) = Real.exp a + Real.exp b := by
  rw [logaddexp, Real.exp_log (by positivity)]

/-- `exp(pos_log_prob x)` is the sigmoid of `x`. -/
theorem exp_pos_log_prob (x : ℝ) : Real.exp (pos_log_prob x) = (1 + Real.exp (-x))⁻¹ := by
  rw [pos_log_prob, Real.exp_neg, Real.exp_log (by positivity)]

/-- `exp(neg_log_prob x)` is the sigmoid of `-x`. -/
theorem exp_neg_log_prob (x : ℝ) : Real.exp (neg_log_prob x) = (1 + Real.exp x)⁻¹ := by
  rw [neg_log_prob, Real.exp_neg, Real.exp_log (by positivity)]

/-- A sigmoid is at most one. -/
theorem exp_pos_log_prob_le_one (x : ℝ) : Real.exp (pos_log_prob x) ≤ 1 := by
  rw [exp_pos_log_prob]
  rw [inv_le_one_iff₀]
  right
  nlinarith [Real.exp_pos (-x)]

/-- A sigmoid is at most one (negative branch). -/
theorem exp_neg_log_prob_le_one (x : ℝ) : Real.exp (neg_log_prob x) ≤ 1 := by
  rw [exp_neg_log_prob]
  rw [inv_le_one_iff₀]
  right
  nlinarith [Real.exp_pos x]

/-- The two branch weights out of one cell sum to one:
`sigmoid(x) + sigmoid(-x) = 1`. -/
theorem exp_pos_add_exp_neg (x : ℝ) :
    Real.exp (pos_log_prob x) + Real.exp (neg_log_prob x) = 1 := by
  rw [exp_pos_log_prob, exp_neg_log_prob]
  have h1 : (0:ℝ) < 1 + Real.exp (-x) := by positivity
  have h2 : (0:ℝ) < 1 + Real.exp x := by positivity
  have hx : Real.exp (-x) * Real.exp x = 1 := by
    rw [← Real.exp_add]; simp
  field_simp
  nlinarith

/-- The padded column 0 of the phi table always holds the sentinel. -/
theorem phis_col_zero (L : Mtx) (i : ℕ) : phis L i 0 = MIN_LOG_PROB := by
  cases i with
  | zero => simp [phis]
  | succ i => rfl

/-- Sum of the exponentiated phi row over the real (unpadded) columns. -/
noncomputable def rowSum (L : Mtx) (t i : ℕ) : ℝ :=
  ∑ j in Finset.range t, Real.exp (phis L i (j + 1))

/-- Row 0 of the exponentiated phi table sums to `1 + (t-1)·exp(MIN_LOG_PROB)`. -/
theorem rowSum_zero (L : Mtx) (m : ℕ) :
    rowSum L (m + 1) 0 = 1 + m * Real.exp MIN_LOG_PROB := by
  rw [rowSum, Finset.sum_range_succ']
  have h1 : ∀ j : ℕ, phis L 0 (j + 1 + 1) = MIN_LOG_PROB := by
    intro j
    simp [phis]
  have h2 : phis L 0 (0 + 1) = 0 := by simp [phis]
  rw [h2, Real.exp_zero]
  rw [Finset.sum_congr rfl fun j _ => by rw [h1 j]]
  rw [Finset.sum_const, Finset.card_range]
  ring

/-- One forward step adds at most `exp(MIN_LOG_PROB)/2` of mass to a row:
each real column's outgoing weights sum to one, the last column can only lose
mass, and the sentinel column 0 injects `exp(MIN_LOG_PROB) * sigmoid(0)`. -/
theorem rowSum_succ_le (L : Mtx) (m i : ℕ) :
    rowSum L (m + 1) (i + 1) ≤ rowSum L (m + 1) i + Real.exp MIN_LOG_PROB / 2 := by
  have hsplit : ∀ j : ℕ, Real.exp (phis L (i + 1) (j + 1)) =
      Real.exp (phis L i (j + 1)) * Real.exp (pos_log_prob (padBy1 L i (j + 1))) +
        Real.exp (phis L i j) * Real.exp (neg_log_prob (padBy1 L i j)) := by
    intro j
    rw [show phis L (i + 1) (j + 1) =
        logaddexp (phis L i (j + 1) + pos_log_prob (padBy1 L i (j + 1)))
          (phis L i j + neg_log_prob (padBy1 L i j)) from rfl]
    rw [exp_logaddexp, Real.exp_add, Real.exp_add]
  rw [rowSum, rowSum]
  rw [Finset.sum_congr rfl fun j _ => hsplit j]
  rw [Finset.sum_add_distrib]
  rw [Finset.sum_range_succ
    (fun j => Real.exp (phis L i (j + 1)) * Real.exp (pos_log_prob (padBy1 L i (j + 1))))]
  rw [Finset.sum_range_succ'
    (fun j => Real.exp (phis L i j) * Real.exp (neg_log_prob (padBy1 L i j)))]
  rw [Finset.sum_range_succ (fun j => Real.exp (phis L i (j + 1)))]
  have hcombine :
      (∑ j in Finset.range m,
          Real.exp (phis L i (j + 1)) * Real.exp (pos_log_prob (padBy1 L i (j + 1)))) +
        (∑ j in Finset.range m,
          Real.exp (phis L i (j + 1)) * Real.exp (neg_log_prob (padBy1 L i (j + 1)))) =
        ∑ j in Finset.range m, Real.exp (phis L i (j + 1)) := by
    rw [← Finset.sum_add_distrib]
    refine Finset.sum_congr rfl fun j _ => ?_
    rw [← mul_add, exp_pos_add_exp_neg, mul_one]
  have hlast : Real.exp (phis L i (m + 1)) * Real.exp (pos_log_prob (padBy1 L i (m + 1))) ≤
      Real.exp (phis L i (m + 1)) := by
    nlinarith [exp_pos_log_prob_le_one (padBy1 L i (m + 1)), Real.exp_pos (phis L i (m + 1)),
      Real.exp_pos (pos_log_prob (padBy1 L i (m + 1)))]
  have hzero : Real.exp (phis L i 0) * Real.exp (neg_log_prob (padBy1 L i 0)) =
      Real.exp MIN_LOG_PROB / 2 := by
    rw [phis_col_zero, show padBy1 L i 0 = 0 from rfl, exp_neg_log_prob, Real.exp_zero]
    norm_num
    ring
  linarith [hcombine, hlast, hzero]

/-- Inductive bound on the exponentiated row mass. -/
theorem rowSum_le (L : Mtx) (m i : ℕ) :
    rowSum L (m + 1) i ≤
      1 + m * Real.exp MIN_LOG_PROB + i * (Real.exp MIN_LOG_PROB / 2) := by
  induction i with
  | zero => rw [rowSum_zero]; push_cast; linarith
  | succ i ih =>
      have := rowSum_succ_le L m i
      push_cast
      push_cast at ih
      linarith

/-- C3 (amended): the exponentiated marginal is always nonnegative, and is
bounded by `1 + (src_len + tgt_len) * exp(MIN_LOG_PROB)`: the classical upper
bound 1 can be exceeded, but only by the sentinel-injected mass (column 0 of
the padded table holds the finite `MIN_LOG_PROB` rather than `-∞`, so each of
the `src_len` forward steps can inject up to `exp(MIN_LOG_PROB)/2`, on top of
the `(tgt_len-1)·exp(MIN_LOG_PROB)` initial sentinel mass of row 0). -/
theorem C3_probability_mass_amended (L : Mtx) (s t i j : ℕ) (hi : i < s) (hj : j < t) :
    0 ≤ Real.exp (prob_out L i j) ∧
      Real.exp (prob_out L i j) ≤ 1 + (s + t) * Real.exp MIN_LOG_PROB := by
  refine ⟨(Real.exp_pos _).le, ?_⟩
  obtain ⟨m, rfl⟩ : ∃ m, t = m + 1 := ⟨t - 1, by omega⟩
  have h1 : Real.exp (prob_out L i j) ≤ Real.exp (phis L i (j + 1)) := by
    rw [prob_out, phi_out, Real.exp_add]
    nlinarith [exp_neg_log_prob_le_one (L i j), Real.exp_pos (phis L i (j + 1)),
      Real.exp_pos (neg_log_prob (L i j))]
  have h2 : Real.exp (phis L i (j + 1)) ≤ rowSum L (m + 1) i := by
    rw [rowSum]
    exact Finset.single_le_sum (fun k _ => (Real.exp_pos (phis L i (k + 1))).le)
      (Finset.mem_range.mpr hj)
  have h3 := rowSum_le L m i
  have hμ : (0:ℝ) < Real.exp MIN_LOG_PROB := Real.exp_pos _
  have hi' : (i : ℝ) ≤ (s : ℝ) - 1 := by
    have : (i : ℝ) + 1 ≤ (s : ℝ) := by exact_mod_cast hi
    linarith
  push_cast
  nlinarith [hμ, hi']

/-- C3 amended witness at `s = t = 1`, `i = j = 0`, zero logits. -/
theorem C3_probability_mass_amended_witness :
    (0 : ℕ) < 1 ∧
      (0 ≤ Real.exp (prob_out (fun _ _ => (0 : ℝ)) 0 0) ∧
        Real.exp (prob_out (fun _ _ => (0 : ℝ)) 0 0) ≤
          1 + ((1 : ℕ) + (1 : ℕ)) * Real.exp MIN_LOG_PROB) :=
  ⟨by norm_num,
    C3_probability_mass_amended (fun _ _ => 0) 1 1 0 0 (by norm_num) (by norm_num)⟩

/-- C3 counterexample: at the concrete 2×1 logits tensor
`[[10002], [-20000]]`, the marginal output of the forward pass at cell (1,0)
is strictly positive, so `exp(prob[1,0]) > 1`: in exact arithmetic the
sentinel `MIN_LOG_PROB` column contributes `exp(-10000)/2 > 0` of spurious
mass at each step, which here exceeds the `-log(1+exp(-20000))` commit
deficit. -/
theorem C3_counterexample :
    0 < prob_out (fun i _ => if i = 0 then (10002 : ℝ) else -20000) 1 0 := by
  have hphi : phis (fun i _ => if i = 0 then (10002 : ℝ) else -20000) 1 1 =
      logaddexp (0 + pos_log_prob 10002) (MIN_LOG_PROB + neg_log_prob 0) := by
    show phis _ (0 + 1) (0 + 1) = _
    rw [phis]
    norm_num [phis, padBy1]
  rw [prob_out, phi_out, hphi]
  have hL : neg_log_prob (if (1 : ℕ) = 0 then (10002 : ℝ) else -20000) =
      -Real.log (1 + Real.exp (-20000 : ℝ)) := by
    rw [if_neg (by norm_num), neg_log_prob]
  rw [hL, logaddexp]
  have hA : Real.exp (0 + pos_log_prob 10002) + Real.exp (MIN_LOG_PROB + neg_log_prob 0) =
      (1 + Real.exp (-10002 : ℝ))⁻¹ + Real.exp (-10000 : ℝ) * (2 : ℝ)⁻¹ := by
    rw [zero_add, exp_pos_log_prob, Real.exp_add, exp_neg_log_prob, Real.exp_zero, MIN_LOG_PROB]
    norm_num
  rw [hA]
  have ha : 0 < Real.exp (-10002 : ℝ) := Real.exp_pos _
  have hb : 0 < Real.exp (-10000 : ℝ) := Real.exp_pos _
  have hc : 0 < Real.exp (-20000 : ℝ) := Real.exp_pos _
  have hexp1 : (2 : ℝ) ≤ Real.exp 1 := by
    have := Real.add_one_le_exp (1 : ℝ); linarith
  have hexp2 : (4 : ℝ) ≤ Real.exp 2 := by
    have h : Real.exp 2 = Real.exp 1 * Real.exp 1 := by
      rw [← Real.exp_add]; norm_num
    nlinarith
  have he2 : Real.exp (-2 : ℝ) ≤ 1 / 4 := by
    rw [Real.exp_neg, inv_le_comm₀ (by positivity) (by norm_num)]
    linarith
  have hab : Real.exp (-10002 : ℝ) = Real.exp (-10000 : ℝ) * Real.exp (-2 : ℝ) := by
    rw [← Real.exp_add]; norm_num
  have hcb : Real.exp (-20000 : ℝ) = Real.exp (-10000 : ℝ) * Real.exp (-10000 : ℝ) := by
    rw [← Real.exp_add]; norm_num
  have hblt : Real.exp (-10000 : ℝ) < Real.exp (-2 : ℝ) :=
    Real.exp_lt_exp.mpr (by norm_num)
  have hkey : 1 + Real.exp (-20000 : ℝ) <
      (1 + Real.exp (-10002 : ℝ))⁻¹ + Real.exp (-10000 : ℝ) * (2 : ℝ)⁻¹ := by
    have hinv : 1 - Real.exp (-10002 : ℝ) ≤ (1 + Real.exp (-10002 : ℝ))⁻¹ := by
      have h1a : (0 : ℝ) < 1 + Real.exp (-10002 : ℝ) := by linarith
      have hmul : (1 - Real.exp (-10002 : ℝ)) * (1 + Real.exp (-10002 : ℝ)) ≤ 1 := by nlinarith
      have hstep := mul_le_mul_of_nonneg_right hmul (le_of_lt (inv_pos.mpr h1a))
      rw [one_mul, mul_assoc, mul_inv_cancel₀ (ne_of_gt h1a), mul_one] at hstep
      exact hstep
    have he2pos : 0 < Real.exp (-2 : ℝ) := Real.exp_pos _
    nlinarith
  have hlt := Real.log_lt_log (by positivity) hkey
  have h0 : (0 : ℝ) ≤ Real.log (1 + Real.exp (-20000 : ℝ)) :=
    Real.log_nonneg (by linarith)
  linarith

/-! ### Gradient correctness (claim C2) -/

/-- Forward-mode tangent of the padded phi table along a direction `v`:
`dphis L v i j` is the derivative of `phis (L + ε v) i j` in `ε` at `ε = 0`,
written with the same branch posteriors the backward pass recomputes. -/
noncomputable def dphis (L v : Mtx) : ℕ → ℕ → ℝ
  | 0, _ => 0
  | _ + 1, 0 => 0
  | i + 1, j + 1 =>
      Real.exp (phis L i (j + 1) + pos_log_prob (padBy1 L i (j + 1)) - phis L (i + 1) (j + 1)) *
          (dphis L v i (j + 1) + d_pos_log_prob (padBy1 L i (j + 1)) * padBy1 v i (j + 1)) +
        Real.exp (phis L i j + neg_log_prob (padBy1 L i j) - phis L (i + 1) (j + 1)) *
          (dphis L v i j + d_neg_log_prob (padBy1 L i j) * padBy1 v i j)

/-- The tangent of the sentinel column is zero. -/
theorem dphis_col_zero (L v : Mtx) (i : ℕ) : dphis L v i 0 = 0 := by
  cases i <;> rfl

/-- Unfolding of the tangent recurrence away from the padding column. -/
theorem dphis_succ_succ (L v : Mtx) (m j : ℕ) :
    dphis L v (m + 1) (j + 1 + 1) =
      aPost L (phi_out L) m (j + 1) *
          (dphis L v m (j + 1 + 1) + d_pos_log_prob (L m (j + 1)) * v m (j + 1)) +
        bPost L (phi_out L) m j * (dphis L v m (j + 1) + d_neg_log_prob (L m j) * v m j) := rfl

/-- Unfolding of the tangent recurrence at the first real column: the
padding-column branch carries no tangent. -/
theorem dphis_succ_zero (L v : Mtx) (m : ℕ) :
    dphis L v (m + 1) (0 + 1) =
      aPost L (phi_out L) m 0 * (dphis L v m (0 + 1) + d_pos_log_prob (L m 0) * v m 0) := by
  have h : dphis L v (m + 1) (0 + 1) =
      aPost L (phi_out L) m 0 * (dphis L v m (0 + 1) + d_pos_log_prob (L m 0) * v m 0) +
        Real.exp (phis L m 0 + neg_log_prob (padBy1 L m 0) - phis L (m + 1) (0 + 1)) *
          (dphis L v m 0 + d_neg_log_prob (padBy1 L m 0) * padBy1 v m 0) := rfl
  rw [h, dphis_col_zero]
  rw [show padBy1 v m 0 = 0 from rfl]
  rw [mul_zero, add_zero, mul_zero, add_zero]

/-- `_pos_log_prob` differentiates to `_d_pos_log_prob`. -/
theorem hasDerivAt_pos_log_prob (x : ℝ) : HasDerivAt pos_log_prob (d_pos_log_prob x) x := by
  have h1 : HasDerivAt (fun y : ℝ => Real.exp (-y)) (-Real.exp (-x)) x := by
    simpa using (hasDerivAt_id x).neg.exp
  have h2 : HasDerivAt (fun y : ℝ => 1 + Real.exp (-y)) (-Real.exp (-x)) x := by
    simpa using (hasDerivAt_const x (1 : ℝ)).add h1
  have hpos : (0 : ℝ) < 1 + Real.exp (-x) := by positivity
  have h3 := (h2.log (ne_of_gt hpos)).neg
  have heq : -(-Real.exp (-x) / (1 + Real.exp (-x))) = d_pos_log_prob x := by
    rw [d_pos_log_prob, neg_div, neg_neg, div_eq_div_iff (by positivity) (by positivity)]
    have he : Real.exp (-x) * Real.exp x = 1 := by rw [← Real.exp_add]; simp
    nlinarith [Real.exp_pos x, Real.exp_pos (-x)]
  rw [← heq]
  exact h3

/-- `_neg_log_prob` differentiates to `_d_neg_log_prob`. -/
theorem hasDerivAt_neg_log_prob (x : ℝ) : HasDerivAt neg_log_prob (d_neg_log_prob x) x := by
  have h2 : HasDerivAt (fun y : ℝ => 1 + Real.exp y) (Real.exp x) x := by
    simpa using (hasDerivAt_const x (1 : ℝ)).add (Real.hasDerivAt_exp x)
  have hpos : (0 : ℝ) < 1 + Real.exp x := by positivity
  have h3 := (h2.log (ne_of_gt hpos)).neg
  have heq : -(Real.exp x / (1 + Real.exp x)) = d_neg_log_prob x := by
    rw [d_neg_log_prob, neg_div, neg_inj, div_eq_div_iff (by positivity) (by positivity)]
    have he : Real.exp (-x) * Real.exp x = 1 := by rw [← Real.exp_add]; simp
    nlinarith [Real.exp_pos x, Real.exp_pos (-x)]
  rw [← heq]
  exact h3

/-- Derivative of `f (c + ε d)` at `ε = 0` for a pointwise-differentiable `f`. -/
theorem hasDerivAt_affine_comp (f : ℝ → ℝ) (fd : ℝ → ℝ)
    (hf : ∀ x, HasDerivAt f (fd x) x) (c d : ℝ) :
    HasDerivAt (fun ε => f (c + ε * d)) (fd c * d) 0 := by
  have hinner : HasDerivAt (fun ε : ℝ => c + ε * d) d 0 := by
    simpa using ((hasDerivAt_id (0 : ℝ)).mul_const d).const_add c
  have houter := hf (c + 0 * d)
  have hcomp := houter.comp 0 hinner
  simpa using hcomp

/-- Derivative of a two-branch `logaddexp` composite, with the coefficients in
the exponential-of-difference form the backward pass uses. -/
theorem hasDerivAt_logaddexp (u w : ℝ → ℝ) (du dw : ℝ) (x : ℝ)
    (hu : HasDerivAt u du x) (hw : HasDerivAt w dw x) :
    HasDerivAt (fun y => logaddexp (u y) (w y))
      (Real.exp (u x - logaddexp (u x) (w x)) * du +
        Real.exp (w x - logaddexp (u x) (w x)) * dw) x := by
  have hsum : HasDerivAt (fun y => Real.exp (u y) + Real.exp (w y))
      (Real.exp (u x) * du + Real.exp (w x) * dw) x := hu.exp.add hw.exp
  have hpos : (0 : ℝ) < Real.exp (u x) + Real.exp (w x) := by positivity
  have hlog := hsum.log (ne_of_gt hpos)
  have heq : (Real.exp (u x) * du + Real.exp (w x) * dw) / (Real.exp (u x) + Real.exp (w x)) =
      Real.exp (u x - logaddexp (u x) (w x)) * du +
        Real.exp (w x - logaddexp (u x) (w x)) * dw := by
    rw [Real.exp_sub, Real.exp_sub, logaddexp, Real.exp_log hpos]
    field_simp
  rw [← heq]
  exact hlog

/-- The perturbed logits tensor `L + ε v`. -/
noncomputable def pert (L v : Mtx) (ε : ℝ) : Mtx := fun a b => L a b + ε * v a b

/-- At `ε = 0` the perturbation is the original tensor. -/
theorem pert_zero (L v : Mtx) : pert L v 0 = L := by
  funext a b
  simp [pert]

/-- The padded logits of a perturbed tensor are the perturbed padded logits. -/
theorem padBy1_pert (L v : Mtx) (ε : ℝ) (i j : ℕ) :
    padBy1 (pert L v ε) i j = padBy1 L i j + ε * padBy1 v i j := by
  rw [padBy1, padBy1, padBy1]
  by_cases h : j = 0
  · simp [h, pert]
  · simp [h, pert]

/-- The tangent table is the derivative of the phi table along direction `v`:
forward-mode correctness of the recurrence. -/
theorem hasDerivAt_phis (L v : Mtx) : ∀ i j : ℕ,
    HasDerivAt (fun ε => phis (pert L v ε) i j) (dphis L v i j) 0 := by
  intro i
  induction i with
  | zero =>
      intro j
      have hconst : (fun ε : ℝ => phis (pert L v ε) 0 j) =
          fun _ => if j = 1 then (0 : ℝ) else MIN_LOG_PROB := by
        funext ε
        rfl
      rw [hconst, show dphis L v 0 j = 0 from rfl]
      exact hasDerivAt_const 0 _
  | succ i ih =>
      intro j
      cases j with
      | zero =>
          have hconst : (fun ε : ℝ => phis (pert L v ε) (i + 1) 0) =
              fun _ => MIN_LOG_PROB := by
            funext ε
            rfl
          rw [hconst, dphis_col_zero]
          exact hasDerivAt_const 0 _
      | succ j =>
          have hfun : (fun ε : ℝ => phis (pert L v ε) (i + 1) (j + 1)) =
              fun ε =>
                logaddexp
                  (phis (pert L v ε) i (j + 1) + pos_log_prob (padBy1 (pert L v ε) i (j + 1)))
                  (phis (pert L v ε) i j + neg_log_prob (padBy1 (pert L v ε) i j)) := by
            funext ε
            rfl
          rw [hfun]
          have hposd : HasDerivAt
              (fun ε : ℝ => pos_log_prob (padBy1 (pert L v ε) i (j + 1)))
              (d_pos_log_prob (padBy1 L i (j + 1)) * padBy1 v i (j + 1)) 0 := by
            have hpad : (fun ε : ℝ => pos_log_prob (padBy1 (pert L v ε) i (j + 1))) =
                fun ε => pos_log_prob (padBy1 L i (j + 1) + ε * padBy1 v i (j + 1)) := by
              funext ε
              rw [padBy1_pert]
            rw [hpad]
            exact hasDerivAt_affine_comp pos_log_prob d_pos_log_prob hasDerivAt_pos_log_prob _ _
          have hnegd : HasDerivAt
              (fun ε : ℝ => neg_log_prob (padBy1 (pert L v ε) i j))
              (d_neg_log_prob (padBy1 L i j) * padBy1 v i j) 0 := by
            have hpad : (fun ε : ℝ => neg_log_prob (padBy1 (pert L v ε) i j)) =
                fun ε => neg_log_prob (padBy1 L i j + ε * padBy1 v i j) := by
              funext ε
              rw [padBy1_pert]
            rw [hpad]
            exact hasDerivAt_affine_comp neg_log_prob d_neg_log_prob hasDerivAt_neg_log_prob _ _
          have hu := (ih (j + 1)).add hposd
          have hw := (ih j).add hnegd
          have hcomp := hasDerivAt_logaddexp _ _ _ _ 0 hu hw
          simp only [pert_zero] at hcomp
          exact hcomp

/-- The derivative of each marginal output cell along direction `v`. -/
theorem hasDerivAt_prob_out (L v : Mtx) (i j : ℕ) :
    HasDerivAt (fun ε => prob_out (pert L v ε) i j)
      (dphis L v i (j + 1) + d_neg_log_prob (L i j) * v i j) 0 := by
  have h1 := hasDerivAt_phis L v i (j + 1)
  have h2 : HasDerivAt (fun ε : ℝ => neg_log_prob (pert L v ε i j))
      (d_neg_log_prob (L i j) * v i j) 0 := by
    have hfn : (fun ε : ℝ => neg_log_prob (pert L v ε i j)) =
        fun ε => neg_log_prob (L i j + ε * v i j) := rfl
    rw [hfn]
    exact hasDerivAt_affine_comp neg_log_prob d_neg_log_prob hasDerivAt_neg_log_prob _ _
  exact h1.add h2

/-- The reverse-loop part of an output row of `backward_pass_cpu_` (the
summands written into `grad_logits[i, :]` during iteration `i`). -/
noncomputable def loop_grad (L phi g : Mtx) (s t : ℕ) (i j : ℕ) : ℝ :=
  grad_phis_final L phi g s t (i + 1) j * aPost L phi i j * d_pos_log_prob (L i j) +
    (if j + 1 < t then
      grad_phis_final L phi g s t (i + 1) (j + 1) * bPost L phi i j * d_neg_log_prob (L i j)
     else 0)

/-- `backward_pass_cpu_` decomposed into its loop part and its direct
`extra_grad` term. -/
theorem backward_eq_loop (L phi g : Mtx) (s t i j : ℕ) :
    backward_pass_cpu_ L phi g s t i j =
      (if i = s - 1 then 0 else loop_grad L phi g s t i j) +
        d_neg_log_prob (L i j) * g i j := rfl

/-- Summing a guard `j + 1 < t + 1` over `range (t + 1)` drops the last
column. -/
theorem sum_ite_shift (t' : ℕ) (h : ℕ → ℝ) :
    ∑ j in Finset.range (t' + 1), (if j + 1 < t' + 1 then h j else 0) =
      ∑ j in Finset.range t', h j := by
  rw [Finset.sum_range_succ, if_neg (by omega), add_zero]
  refine Finset.sum_congr rfl fun j hj => ?_
  have hj' := Finset.mem_range.mp hj
  rw [if_pos (by omega)]

/-- Expanding one tangent row against an arbitrary adjoint row `G`: the
weighted tangent mass of row `m+1` rewrites as adjoint-weighted tangent mass
of row `m` plus the per-cell direction contributions that the backward loop
emits at row `m`. -/
theorem row_expand (L v : Mtx) (G : ℕ → ℝ) (m t' : ℕ) :
    ∑ j in Finset.range (t' + 1), G j * dphis L v (m + 1) (j + 1) =
      (∑ j in Finset.range (t' + 1),
        (G j * aPost L (phi_out L) m j +
          (if j + 1 < t' + 1 then G (j + 1) * bPost L (phi_out L) m j else 0)) *
          dphis L v m (j + 1)) +
      ∑ j in Finset.range (t' + 1),
        (G j * aPost L (phi_out L) m j * d_pos_log_prob (L m j) +
          (if j + 1 < t' + 1 then G (j + 1) * bPost L (phi_out L) m j * d_neg_log_prob (L m j)
           else 0)) * v m j := by
  have hLHS : ∑ j in Finset.range (t' + 1), G j * dphis L v (m + 1) (j + 1) =
      (∑ j in Finset.range t',
        (fun k => G k * aPost L (phi_out L) m k *
          (dphis L v m (k + 1) + d_pos_log_prob (L m k) * v m k)) (j + 1)) +
        (fun k => G k * aPost L (phi_out L) m k *
          (dphis L v m (k + 1) + d_pos_log_prob (L m k) * v m k)) 0 +
      ∑ j in Finset.range t',
        G (j + 1) * bPost L (phi_out L) m j *
          (dphis L v m (j + 1) + d_neg_log_prob (L m j) * v m j) := by
    rw [Finset.sum_range_succ' (fun j => G j * dphis L v (m + 1) (j + 1))]
    have hterm : ∀ j, G (j + 1) * dphis L v (m + 1) (j + 1 + 1) =
        (fun k => G k * aPost L (phi_out L) m k *
          (dphis L v m (k + 1) + d_pos_log_prob (L m k) * v m k)) (j + 1) +
          G (j + 1) * bPost L (phi_out L) m j *
            (dphis L v m (j + 1) + d_neg_log_prob (L m j) * v m j) := by
      intro j
      rw [dphis_succ_succ]
      ring
    rw [Finset.sum_congr rfl fun j _ => hterm j]
    rw [Finset.sum_add_distrib]
    rw [dphis_succ_zero]
    ring
  have h1 : ∑ j in Finset.range (t' + 1),
      (G j * aPost L (phi_out L) m j +
        (if j + 1 < t' + 1 then G (j + 1) * bPost L (phi_out L) m j else 0)) *
        dphis L v m (j + 1) =
      (∑ j in Finset.range (t' + 1),
        G j * aPost L (phi_out L) m j * dphis L v m (j + 1)) +
      ∑ j in Finset.range t',
        G (j + 1) * bPost L (phi_out L) m j * dphis L v m (j + 1) := by
    rw [Finset.sum_congr rfl fun j _ => add_mul (G j * aPost L (phi_out L) m j)
      (if j + 1 < t' + 1 then G (j + 1) * bPost L (phi_out L) m j else 0)
      (dphis L v m (j + 1))]
    rw [Finset.sum_add_distrib]
    congr 1
    rw [← sum_ite_shift t'
      (fun j => G (j + 1) * bPost L (phi_out L) m j * dphis L v m (j + 1))]
    refine Finset.sum_congr rfl fun j _ => ?_
    by_cases h : j + 1 < t' + 1
    · rw [if_pos h, if_pos h]
    · rw [if_neg h, if_neg h, zero_mul]
  have h2 : ∑ j in Finset.range (t' + 1),
      (G j * aPost L (phi_out L) m j * d_pos_log_prob (L m j) +
        (if j + 1 < t' + 1 then G (j + 1) * bPost L (phi_out L) m j * d_neg_log_prob (L m j)
         else 0)) * v m j =
      (∑ j in Finset.range (t' + 1),
        G j * aPost L (phi_out L) m j * d_pos_log_prob (L m j) * v m j) +
      ∑ j in Finset.range t',
        G (j + 1) * bPost L (phi_out L) m j * d_neg_log_prob (L m j) * v m j := by
    rw [Finset.sum_congr rfl fun j _ => add_mul
      (G j * aPost L (phi_out L) m j * d_pos_log_prob (L m j))
      (if j + 1 < t' + 1 then G (j + 1) * bPost L (phi_out L) m j * d_neg_log_prob (L m j)
       else 0) (v m j)]
    rw [Finset.sum_add_distrib]
    congr 1
    rw [← sum_ite_shift t'
      (fun j => G (j + 1) * bPost L (phi_out L) m j * d_neg_log_prob (L m j) * v m j)]
    refine Finset.sum_congr rfl fun j _ => ?_
    by_cases h : j + 1 < t' + 1
    · rw [if_pos h, if_pos h]
    · rw [if_neg h, if_neg h, zero_mul]
  rw [hLHS, h1, h2]
  have hmerge1 : ∑ j in Finset.range (t' + 1),
      G j * aPost L (phi_out L) m j *
        (dphis L v m (j + 1) + d_pos_log_prob (L m j) * v m j) =
      (∑ j in Finset.range (t' + 1), G j * aPost L (phi_out L) m j * dphis L v m (j + 1)) +
      ∑ j in Finset.range (t' + 1),
        G j * aPost L (phi_out L) m j * d_pos_log_prob (L m j) * v m j := by
    rw [← Finset.sum_add_distrib]
    exact Finset.sum_congr rfl fun j _ => by ring
  have hmerge2 : ∑ j in Finset.range t',
      G (j + 1) * bPost L (phi_out L) m j *
        (dphis L v m (j + 1) + d_neg_log_prob (L m j) * v m j) =
      (∑ j in Finset.range t', G (j + 1) * bPost L (phi_out L) m j * dphis L v m (j + 1)) +
      ∑ j in Finset.range t',
        G (j + 1) * bPost L (phi_out L) m j * d_neg_log_prob (L m j) * v m j := by
    rw [← Finset.sum_add_distrib]
    exact Finset.sum_congr rfl fun j _ => by ring
  rw [← Finset.sum_range_succ' (fun k => G k * aPost L (phi_out L) m k *
    (dphis L v m (k + 1) + d_pos_log_prob (L m k) * v m k)) t'] at hLHS ⊢
  rw [hmerge1, hmerge2]
  ring

/-- Reverse telescoping of the adjoint accumulation: after the backward loop
has processed rows `N-1 .. N-k`, the adjoint-weighted tangent mass of the
remaining top rows equals the accumulator row `N-k` paired with the tangent of
that row, plus the direction contributions already emitted into
`grad_logits`. -/
theorem telescope (L v g : Mtx) (t N : ℕ) :
    ∀ k, k ≤ N →
      ∑ i in Finset.Ico (N - k) (N + 1), ∑ j in Finset.range t,
          g i j * dphis L v i (j + 1) =
        (∑ j in Finset.range t,
          grad_phis_aux L (phi_out L) g (N + 1) t k j * dphis L v (N - k) (j + 1)) +
        ∑ i in Finset.Ico (N - k) N, ∑ j in Finset.range t,
          loop_grad L (phi_out L) g (N + 1) t i j * v i j := by
  intro k
  induction k with
  | zero =>
      intro _
      rw [Nat.sub_zero, Nat.Ico_succ_singleton, Finset.Ico_self, Finset.sum_singleton,
        Finset.sum_empty, add_zero]
      rfl
  | succ k ih =>
      intro hk1
      have ihh := ih (by omega)
      have hmN : N - (k + 1) < N := by omega
      have hm1 : N - k = N - (k + 1) + 1 := by omega
      rw [Finset.sum_eq_sum_Ico_succ_bot (by omega : N - (k + 1) < N + 1)]
      rw [← hm1, ihh, hm1]
      rcases t with _ | t'
      · simp [loop_grad]
      · rw [row_expand L v (fun j => grad_phis_aux L (phi_out L) g (N + 1) (t' + 1) k j)
          (N - (k + 1)) t']
        have haux : ∀ j, grad_phis_aux L (phi_out L) g (N + 1) (t' + 1) (k + 1) j =
            g (N - (k + 1)) j +
              (grad_phis_aux L (phi_out L) g (N + 1) (t' + 1) k j *
                aPost L (phi_out L) (N - (k + 1)) j +
                (if j + 1 < t' + 1 then
                  grad_phis_aux L (phi_out L) g (N + 1) (t' + 1) k (j + 1) *
                    bPost L (phi_out L) (N - (k + 1)) j
                 else 0)) := by
          intro j
          have hrow : N + 1 - 2 - k = N - (k + 1) := by omega
          rw [grad_phis_aux, hrow]
          ring
        have hfin : ∀ j, grad_phis_final L (phi_out L) g (N + 1) (t' + 1) (N - (k + 1) + 1) j =
            grad_phis_aux L (phi_out L) g (N + 1) (t' + 1) k j := by
          intro j
          rw [grad_phis_final]
          congr 2
          omega
        have hloop : ∀ j,
            (grad_phis_aux L (phi_out L) g (N + 1) (t' + 1) k j *
              aPost L (phi_out L) (N - (k + 1)) j * d_pos_log_prob (L (N - (k + 1)) j) +
              (if j + 1 < t' + 1 then
                grad_phis_aux L (phi_out L) g (N + 1) (t' + 1) k (j + 1) *
                  bPost L (phi_out L) (N - (k + 1)) j * d_neg_log_prob (L (N - (k + 1)) j)
               else 0)) * v (N - (k + 1)) j =
            loop_grad L (phi_out L) g (N + 1) (t' + 1) (N - (k + 1)) j * v (N - (k + 1)) j := by
          intro j
          rw [loop_grad, hfin j, hfin (j + 1)]
        have hsum1 : ∑ j in Finset.range (t' + 1),
            grad_phis_aux L (phi_out L) g (N + 1) (t' + 1) (k + 1) j *
              dphis L v (N - (k + 1)) (j + 1) =
            (∑ j in Finset.range (t' + 1),
              g (N - (k + 1)) j * dphis L v (N - (k + 1)) (j + 1)) +
            ∑ j in Finset.range (t' + 1),
              (grad_phis_aux L (phi_out L) g (N + 1) (t' + 1) k j *
                aPost L (phi_out L) (N - (k + 1)) j +
                (if j + 1 < t' + 1 then
                  grad_phis_aux L (phi_out L) g (N + 1) (t' + 1) k (j + 1) *
                    bPost L (phi_out L) (N - (k + 1)) j
                 else 0)) * dphis L v (N - (k + 1)) (j + 1) := by
          rw [← Finset.sum_add_distrib]
          refine Finset.sum_congr rfl fun j _ => ?_
          rw [haux j]
          ring
        have hsum2 : ∑ j in Finset.range (t' + 1),
            (grad_phis_aux L (phi_out L) g (N + 1) (t' + 1) k j *
              aPost L (phi_out L) (N - (k + 1)) j * d_pos_log_prob (L (N - (k + 1)) j) +
              (if j + 1 < t' + 1 then
                grad_phis_aux L (phi_out L) g (N + 1) (t' + 1) k (j + 1) *
                  bPost L (phi_out L) (N - (k + 1)) j * d_neg_log_prob (L (N - (k + 1)) j)
               else 0)) * v (N - (k + 1)) j =
            ∑ j in Finset.range (t' + 1),
              loop_grad L (phi_out L) g (N + 1) (t' + 1) (N - (k + 1)) j *
                v (N - (k + 1)) j :=
          Finset.sum_congr rfl fun j _ => hloop j
        rw [hsum1, hsum2]
        rw [Finset.sum_eq_sum_Ico_succ_bot hmN
          (fun i => ∑ j in Finset.range (t' + 1),
            loop_grad L (phi_out L) g (N + 1) (t' + 1) i j * v i j)]
        rw [← hm1]
        ring

/-- The full vector-Jacobian identity in summed form: the adjoint-weighted
tangent of the marginal output equals the backward-pass output paired with
the direction. -/
theorem vjp_sum (L v g : Mtx) (N t : ℕ) :
    ∑ i in Finset.range (N + 1), ∑ j in Finset.range t,
        g i j * (dphis L v i (j + 1) + d_neg_log_prob (L i j) * v i j) =
      ∑ i in Finset.range (N + 1), ∑ j in Finset.range t,
        backward_pass_cpu_ L (phi_out L) g (N + 1) t i j * v i j := by
  have htel := telescope L v g t N N le_rfl
  rw [Nat.sub_self] at htel
  have h0 : ∑ j in Finset.range t,
      grad_phis_aux L (phi_out L) g (N + 1) t N j * dphis L v 0 (j + 1) = 0 := by
    refine Finset.sum_eq_zero fun j _ => ?_
    rw [show dphis L v 0 (j + 1) = 0 from rfl, mul_zero]
  rw [h0, zero_add, ← Finset.range_eq_Ico] at htel
  have hsplit : ∀ i, ∑ j in Finset.range t,
      g i j * (dphis L v i (j + 1) + d_neg_log_prob (L i j) * v i j) =
      (∑ j in Finset.range t, g i j * dphis L v i (j + 1)) +
        ∑ j in Finset.range t, d_neg_log_prob (L i j) * g i j * v i j := by
    intro i
    rw [← Finset.sum_add_distrib]
    exact Finset.sum_congr rfl fun j _ => by ring
  rw [Finset.sum_congr rfl fun i _ => hsplit i, Finset.sum_add_distrib]
  have hR : ∀ i, ∑ j in Finset.range t,
      backward_pass_cpu_ L (phi_out L) g (N + 1) t i j * v i j =
      (∑ j in Finset.range t,
        (if i = N then 0 else loop_grad L (phi_out L) g (N + 1) t i j) * v i j) +
        ∑ j in Finset.range t, d_neg_log_prob (L i j) * g i j * v i j := by
    intro i
    rw [← Finset.sum_add_distrib]
    refine Finset.sum_congr rfl fun j _ => ?_
    rw [backward_eq_loop, Nat.add_sub_cancel]
    ring
  rw [Finset.sum_congr rfl fun i _ => hR i, Finset.sum_add_distrib]
  have hite : ∑ i in Finset.range (N + 1), ∑ j in Finset.range t,
      (if i = N then 0 else loop_grad L (phi_out L) g (N + 1) t i j) * v i j =
      ∑ i in Finset.range N, ∑ j in Finset.range t,
        loop_grad L (phi_out L) g (N + 1) t i j * v i j := by
    rw [Finset.sum_range_succ]
    have hlast : ∑ j in Finset.range t,
        (if N = N then 0 else loop_grad L (phi_out L) g (N + 1) t N j) * v N j = 0 := by
      refine Finset.sum_eq_zero fun j _ => ?_
      rw [if_pos rfl, zero_mul]
    rw [hlast, add_zero]
    refine Finset.sum_congr rfl fun i hi => Finset.sum_congr rfl fun j _ => ?_
    have hi' := Finset.mem_range.mp hi
    rw [if_neg (by omega)]
  rw [hite, htel]

/-- C2: the backward pass computes the exact vector-Jacobian product.  For
every logits tensor `L`, direction `v` and upstream gradient `g`, the
derivative in `ε` at `ε = 0` of the `g`-weighted marginal output of the
forward pass on `L + ε v` equals the inner product of
`backward_pass_cpu_(L, phi, g)` (with `phi` the table produced by
`forward_pass_cpu_(L)`) with `v` — i.e. the analytic gradient is the true
derivative of the forward output in every direction. -/
theorem C2_backward_exact_gradient (s t : ℕ) (hs : 1 ≤ s) (L v g : Mtx) :
    HasDerivAt
      (fun ε => ∑ i in Finset.range s, ∑ j in Finset.range t,
        g i j * prob_out (fun a b => L a b + ε * v a b) i j)
      (∑ i in Finset.range s, ∑ j in Finset.range t,
        backward_pass_cpu_ L (phi_out L) g s t i j * v i j) 0 := by
  obtain ⟨N, rfl⟩ : ∃ N, s = N + 1 := ⟨s - 1, by omega⟩
  have hsum : HasDerivAt
      (fun ε => ∑ i in Finset.range (N + 1), ∑ j in Finset.range t,
        g i j * prob_out (pert L v ε) i j)
      (∑ i in Finset.range (N + 1), ∑ j in Finset.range t,
        g i j * (dphis L v i (j + 1) + d_neg_log_prob (L i j) * v i j)) 0 :=
    HasDerivAt.sum fun i _ => HasDerivAt.sum fun j _ =>
      (hasDerivAt_prob_out L v i j).const_mul (g i j)
  rw [← vjp_sum L v g N t]
  exact hsum

/-- C2 witness at `s = 2`, `t = 1` with unit logits, direction and upstream
gradient. -/
theorem C2_backward_exact_gradient_witness :
    (1 : ℕ) ≤ 2 ∧
      HasDerivAt
        (fun ε => ∑ i in Finset.range 2, ∑ j in Finset.range 1,
          (fun _ _ => (1 : ℝ)) i j *
            prob_out (fun a b => (fun _ _ => (1 : ℝ)) a b + ε * (fun _ _ => (1 : ℝ)) a b) i j)
        (∑ i in Finset.range 2, ∑ j in Finset.range 1,
          backward_pass_cpu_ (fun _ _ => (1 : ℝ)) (phi_out (fun _ _ => (1 : ℝ)))
              (fun _ _ => (1 : ℝ)) 2 1 i j *
            (fun _ _ => (1 : ℝ)) i j) 0 :=
  ⟨by norm_num,
    C2_backward_exact_gradient 2 1 (by norm_num) (fun _ _ => 1) (fun _ _ => 1) (fun _ _ => 1)⟩
